import Mathlib

/-!
# Verification of the `tabled` width-adjustment and rendering layer

A shallow embedding of the width-truncation machinery of the `tabled`
table-rendering library (`tabled/src/settings/width/truncate.rs`,
`src/settings/width/width_list.rs`, `src/settings/span.rs`,
`tabled/src/settings/panel/horizontal_panel.rs`) together with the parts of
the underlying `papergrid` layer that those files call into.  The `papergrid`
helpers (`cut_str`, `string_width_tab`, `get_table_widths`, `Entity`
iteration, the renderer) are not part of the available sources; they are
modelled from the specification and marked as such in their doc comments.

Strings are modelled as `List Char`; visual width is per-character, with the
fixed policy that every ordinary character counts 1 column and a tab expands
to the configured tab width.
-/

namespace Tabled

/-- Modelled from the spec: the visual width of a single character.  The spec
fixes the defensive policy "unknown-width characters treated as width 1";
tabs are handled separately by expansion (`replaceTab`). -/
def charWidth (_ : Char) : Nat := 1

/-- Modelled from the spec (missing `papergrid::util::string::replace_tab`):
every tab character is expanded to `tabWidth` spaces. -/
def replaceTab (s : List Char) (tabWidth : Nat) : List Char :=
  s.flatMap (fun c => if c = '\t' then List.replicate tabWidth ' ' else [c])

/-- Visual width of a tab-free string: the sum of its character widths. -/
def stringWidth (s : List Char) : Nat :=
  (s.map charWidth).sum

/-- Modelled from the spec (missing `papergrid::util::string::string_width_tab`):
visual width of a single-line string, with tabs expanded to the configured
tab width. -/
def stringWidthTab (s : List Char) (tabWidth : Nat) : Nat :=
  stringWidth (replaceTab s tabWidth)

/-- Split a string into its lines at newline characters. -/
def splitLines (s : List Char) : List (List Char) :=
  s.foldr (fun c acc =>
    if c = '\n' then [] :: acc
    else match acc with
      | [] => [[c]]
      | l :: ls => (c :: l) :: ls) [[]]

/-- Modelled from the spec (missing
`papergrid::util::string::string_width_multiline_tab`): the visual width of a
multi-line string is the maximum of its lines' tab-expanded widths. -/
def stringWidthMultilineTab (s : List Char) (tabWidth : Nat) : Nat :=
  ((splitLines s).map (fun l => stringWidthTab l tabWidth)).foldr max 0

/-- Modelled from the spec (missing `papergrid::util::cut_str`): cut a string
to a visual width, keeping the longest prefix whose accumulated character
width does not exceed the budget.  (The real function is colour-aware; colour
escapes carry no layout weight and are not modelled.) -/
def cutStr : List Char → Nat → List Char
  | [], _ => []
  | c :: cs, w => if charWidth c ≤ w ∧ 0 < w then c :: cutStr cs (w - charWidth c) else []

/-- `SuffixLimit` from `truncate.rs`: policy applied when the suffix is too
big to fit in the available width. -/
inductive SuffixLimit where
  | Cut : SuffixLimit
  | Ignore : SuffixLimit
  | Replace : Char → SuffixLimit
deriving DecidableEq, Repr

/-- `TruncateSuffix` from `truncate.rs` (the colour field is feature-gated
and not modelled). -/
structure TruncateSuffix where
  text : List Char
  limit : SuffixLimit
deriving DecidableEq, Repr

/-- `make_suffix` from `truncate.rs`: given the available width, return the
suffix to append and the width left over for content. -/
def makeSuffix (suffix : TruncateSuffix) (width : Nat) (tabWidth : Nat) :
    List Char × Nat :=
  let suffixLength := stringWidthTab suffix.text tabWidth
  if suffixLength < width then
    (suffix.text, width - suffixLength)
  else
    match suffix.limit with
    | SuffixLimit.Ignore => ([], width)
    | SuffixLimit.Cut => (cutStr suffix.text width, 0)
    | SuffixLimit.Replace c => (List.replicate width c, 0)

/-- `truncate_text` from `truncate.rs` (colour feature off): cut the content
and append the suffix when one is present. -/
def truncateText (content : List Char) (width : Nat) (suffix : List Char) :
    List Char :=
  let content := cutStr content width
  if suffix = [] then content else content ++ suffix

/-- The record source: a grid of strings with an explicit shape, mirroring
`Records + ExactRecords` (`count_rows`, `count_columns`, `get_cell`, `set`).
Cells are stored row-major; positions outside the stored data read as empty. -/
structure Records where
  rows : Nat
  cols : Nat
  data : List (List (List Char))
deriving DecidableEq, Repr

/-- `get_cell`: the text of the cell at a position. -/
def Records.get (r : Records) (pos : Nat × Nat) : List Char :=
  ((r.data.getD pos.1 []).getD pos.2 [])

/-- `RecordsMut::set`: overwrite the text of the cell at a position. -/
def Records.set (r : Records) (pos : Nat × Nat) (text : List Char) : Records :=
  { r with data := r.data.set pos.1 ((r.data.getD pos.1 []).set pos.2 text) }

/-- `EmptyRecords::new(count_rows, count_columns)`: a grid of the given shape
whose every cell is empty. -/
def emptyRecords (rows cols : Nat) : Records :=
  { rows := rows, cols := cols,
    data := List.replicate rows (List.replicate cols []) }

/-- Modelled from the spec (missing `papergrid::config::Entity`): a
configuration target — the whole grid, a column, a row, or a single cell. -/
inductive Entity where
  | Global : Entity
  | Column : Nat → Entity
  | Row : Nat → Entity
  | Cell : Nat → Nat → Entity
deriving DecidableEq, Repr

/-- Modelled from the spec (missing `Entity::iter`): enumerate the positions
an entity covers inside a `rows × cols` grid, in row-major order.
Out-of-range targets match nothing (the spec's "no panic path for
out-of-range Entity targets — they simply match nothing"). -/
def Entity.iter : Entity → Nat → Nat → List (Nat × Nat)
  | Entity.Global, rows, cols =>
      (List.range rows).flatMap (fun r => (List.range cols).map (fun c => (r, c)))
  | Entity.Column c, rows, cols =>
      if c < cols then (List.range rows).map (fun r => (r, c)) else []
  | Entity.Row r, rows, cols =>
      if r < rows then (List.range cols).map (fun c => (r, c)) else []
  | Entity.Cell r c, rows, cols =>
      if r < rows ∧ c < cols then [(r, c)] else []

/-- Modelled from the spec (missing `papergrid::GridConfig`): the slice of
the grid configuration the width machinery reads — tab width, global padding
sizes, the set of vertical border lines present, and the span tables.
Spans are stored as association lists keyed by the top-left cell position. -/
structure GridConfig where
  tabWidth : Nat
  padLeft : Nat
  padRight : Nat
  verticals : List Nat
  columnSpans : List ((Nat × Nat) × Nat)
  rowSpans : List ((Nat × Nat) × Nat)
deriving DecidableEq, Repr

/-- `GridProjection::has_vertical`: is there a vertical border line at
boundary `i`? -/
def GridConfig.hasVertical (cfg : GridConfig) (i : Nat) : Bool :=
  cfg.verticals.contains i

/-- `get_span_column`: the raw column span stored for a position, if any. -/
def GridConfig.getSpanColumn (cfg : GridConfig) (pos : Nat × Nat) : Option Nat :=
  (cfg.columnSpans.find? (fun e => e.1 = pos)).map (fun e => e.2)

/-- `get_span_row`: the raw row span stored for a position, if any. -/
def GridConfig.getSpanRow (cfg : GridConfig) (pos : Nat × Nat) : Option Nat :=
  (cfg.rowSpans.find? (fun e => e.1 = pos)).map (fun e => e.2)

/-- Remove the entry for a key from an association list. -/
def eraseKey (l : List ((Nat × Nat) × Nat)) (k : Nat × Nat) :
    List ((Nat × Nat) × Nat) :=
  l.filter (fun e => e.1 ≠ k)

/-- Modelled from the spec (missing `GridConfig::set_column_span`): store a
column span.  A span whose cell position is out of the grid or whose size
exceeds the total number of columns is silently ignored (the spec's
"silently clamped or ignored — never propagated as a failure"); a span of
size ≤ 1 clears the entry. -/
def GridConfig.setColumnSpan (cfg : GridConfig) (shape : Nat × Nat)
    (pos : Nat × Nat) (size : Nat) : GridConfig :=
  if pos.1 < shape.1 ∧ pos.2 < shape.2 ∧ size ≤ shape.2 then
    if size ≤ 1 then
      { cfg with columnSpans := eraseKey cfg.columnSpans pos }
    else
      { cfg with columnSpans := (pos, size) :: eraseKey cfg.columnSpans pos }
  else cfg

/-- Modelled from the spec (missing `GridConfig::set_row_span`): store a row
span, with the same silent-ignore rule against the number of rows. -/
def GridConfig.setRowSpan (cfg : GridConfig) (shape : Nat × Nat)
    (pos : Nat × Nat) (size : Nat) : GridConfig :=
  if pos.1 < shape.1 ∧ pos.2 < shape.2 ∧ size ≤ shape.1 then
    if size ≤ 1 then
      { cfg with rowSpans := eraseKey cfg.rowSpans pos }
    else
      { cfg with rowSpans := (pos, size) :: eraseKey cfg.rowSpans pos }
  else cfg

/-- Modelled from the spec (missing `GridProjection::is_cell_visible`): a
cell is visible unless it is covered by a span that starts strictly before it
(the spec's "every (row, col) maps to either owns a box or delegates to the
owner"). -/
def GridConfig.isCellVisible (cfg : GridConfig) (pos : Nat × Nat) : Bool :=
  (cfg.columnSpans.all (fun e =>
      ¬(e.1.1 = pos.1 ∧ e.1.2 < pos.2 ∧ pos.2 < e.1.2 + e.2))) &&
  (cfg.rowSpans.all (fun e =>
      ¬(e.1.2 = pos.2 ∧ e.1.1 < pos.1 ∧ pos.1 < e.1.1 + e.2)))

/-- `count_borders` from `truncate.rs`: the number of vertical border lines
strictly inside the column range `[start, end)`. -/
def countBorders (cfg : GridConfig) (start stop : Nat) : Nat :=
  (((List.range' start (stop - start)).drop 1).filter
    (fun i => cfg.hasVertical i)).length

/-- The `Truncate` setting (width measured, suffix optional); the priority
policy is passed separately where it is used. -/
structure TruncateCfg where
  width : Nat
  suffix : Option TruncateSuffix
deriving DecidableEq, Repr

/-- `Truncate::new(width)`. -/
def TruncateCfg.new (width : Nat) : TruncateCfg :=
  { width := width, suffix := none }

/-- `CellOption for Truncate::change` from `truncate.rs`: for every position
the entity covers, a cell whose tab-expanded multi-line width exceeds the
requested width is rewritten to its tab-replaced text cut to the available
content width with the suffix appended; other cells are skipped. -/
def truncateCellChange (t : TruncateCfg) (records : Records) (cfg : GridConfig)
    (entity : Entity) : Records :=
  let truncateWidth := t.width
  let sw :=
    match t.suffix with
    | none => ([], truncateWidth)
    | some x => makeSuffix x truncateWidth cfg.tabWidth
  let suffix := sw.1
  let width := sw.2
  (entity.iter records.rows records.cols).foldl (fun recs pos =>
    let text := recs.get pos
    let cellWidth := stringWidthMultilineTab text cfg.tabWidth
    if truncateWidth ≥ cellWidth then recs
    else
      let newText :=
        if width = 0 then
          if truncateWidth = 0 then [] else suffix
        else
          truncateText (replaceTab text cfg.tabWidth) width suffix
      recs.set pos newText) records

/-- Modelled from the spec (missing `papergrid` width estimation,
`get_table_widths`): per-column width = the maximum over the rows of the
cell's tab-expanded multi-line width, plus resolved left and right padding.
Span distribution (spec §4.2 step 4) is omitted: the configurations under
study carry no spans when this estimator is consulted. -/
def getTableWidths (r : Records) (cfg : GridConfig) : List Nat :=
  (List.range r.cols).map (fun c =>
    ((List.range r.rows).map (fun row =>
        stringWidthMultilineTab (r.get (row, c)) cfg.tabWidth)).foldr max 0
      + cfg.padLeft + cfg.padRight)

/-- Modelled from the spec: the number of border glyph columns of the whole
table — one per vertical border line at boundaries `0..cols`. -/
def totalBorderCount (cfg : GridConfig) (cols : Nat) : Nat :=
  ((List.range (cols + 1)).filter (fun i => cfg.hasVertical i)).length

/-- Modelled from the spec (missing `get_table_widths_with_total`): the
estimated widths together with `total = sum(widths) + border count`. -/
def getTableWidthsWithTotal (r : Records) (cfg : GridConfig) :
    List Nat × Nat :=
  let widths := getTableWidths r cfg
  (widths, widths.sum + totalBorderCount cfg r.cols)

/-- A priority policy (`Peaker`): from its internal state and the minimal and
current widths, pick the next column to shrink (or `none`), returning its
updated state.  The Rust trait's `&mut self` is modelled by state passing. -/
structure Peaker (σ : Type) where
  peak : σ → List Nat → List Nat → Option (Nat × σ)

/-- The loop body of `decrease_widths` from `truncate.rs`, with explicit
fuel standing in for the unbounded `while`: while `width ≠ totalWidth`, stop
if every column is empty, ask the peaker for a column, skip it if it is
already at (or below) its minimum or zero, otherwise decrement it by one and
account for it becoming empty. -/
def decLoop {σ : Type} (P : Peaker σ) (minWidths : List Nat)
    (totalWidth : Nat) :
    Nat → List Nat → Nat → Nat → σ → List Nat
  | 0, widths, _, _, _ => widths
  | fuel + 1, widths, emptyList, width, s =>
    if width = totalWidth then widths
    else if emptyList = widths.length then widths
    else
      match P.peak s minWidths widths with
      | none => widths
      | some (col, s1) =>
        if widths.getD col 0 = 0 ∨ widths.getD col 0 ≤ minWidths.getD col 0 then
          decLoop P minWidths totalWidth fuel widths emptyList width s1
        else
          let widths1 := widths.set col (widths.getD col 0 - 1)
          let emptyList1 :=
            if widths1.getD col 0 = 0 ∨ widths1.getD col 0 ≤ minWidths.getD col 0
            then emptyList + 1 else emptyList
          decLoop P minWidths totalWidth fuel widths1 emptyList1 (width + 1) s1

/-- The number of columns that are empty in the sense of `decrease_widths`:
zero width or at/below their minimum. -/
def countEmpty (minWidths widths : List Nat) : Nat :=
  ((List.range widths.length).filter (fun col =>
    widths.getD col 0 = 0 ∨ widths.getD col 0 ≤ minWidths.getD col 0)).length

/-- `decrease_widths` from `truncate.rs`: count the initially empty columns,
then run the decrement loop (`width` counts up from the target to
`totalWidth`, one unit per decrement). -/
def decreaseWidths {σ : Type} (P : Peaker σ) (s : σ)
    (widths minWidths : List Nat) (totalWidth width : Nat) (fuel : Nat) :
    List Nat :=
  decLoop P minWidths totalWidth fuel widths (countEmpty minWidths widths) width s

/-- `get_decrease_cell_list` from `truncate.rs`: for every visible cell, the
width available to its content — the (span-aware) column width compared
against the minimal width, minus left and right padding. -/
def getDecreaseCellList (cfg : GridConfig) (widths minWidths : List Nat)
    (shape : Nat × Nat) : List ((Nat × Nat) × Nat) :=
  (List.range shape.2).flatMap (fun col =>
    ((List.range shape.1).filter
        (fun row => cfg.isCellVisible (row, col))).filterMap (fun row =>
      let wm :=
        match cfg.getSpanColumn (row, col) with
        | some span =>
          let w := ((List.range' col span).map (fun i => widths.getD i 0)).sum
          let mw := ((List.range' col span).map (fun i => minWidths.getD i 0)).sum
          let cb := countBorders cfg col (col + span)
          (w + cb, mw + cb)
        | none => (widths.getD col 0, minWidths.getD col 0)
      if wm.1 ≥ wm.2 then
        some ((row, col), wm.1 - (cfg.padLeft + cfg.padRight))
      else none))

/-- `truncate_total_width` from `truncate.rs`: compute the minimal widths
from an empty grid of the same shape, run `decrease_widths`, then apply the
per-cell truncation at every point of `get_decrease_cell_list`, returning
the rewritten records and the final widths. -/
def truncateTotalWidth {σ : Type} (P : Peaker σ) (s : σ) (fuel : Nat)
    (records : Records) (cfg : GridConfig) (widths : List Nat)
    (total width : Nat) (suffix : Option TruncateSuffix) :
    Records × List Nat :=
  let minWidths := getTableWidths (emptyRecords records.rows records.cols) cfg
  let widths1 := decreaseWidths P s widths minWidths total width fuel
  let points := getDecreaseCellList cfg widths1 minWidths (records.rows, records.cols)
  let records1 := points.foldl (fun recs pt =>
    truncateCellChange { width := pt.2, suffix := suffix } recs cfg
      (Entity.Cell pt.1.1 pt.1.2)) records
  (records1, widths1)

/-- The dimension object (`TableDimension`) as the width machinery sees it:
an optional list of fixed column widths. -/
structure TableDimension where
  widths : Option (List Nat)
deriving DecidableEq, Repr

/-- `TableDimension::set_widths`. -/
def TableDimension.setWidths (d : TableDimension) (w : List Nat) :
    TableDimension :=
  { d with widths := some w }

/-- `TableOption for Truncate::change` from `truncate.rs`: a no-op on an
empty grid; a no-op when the estimated total already fits the target;
otherwise truncate down to the target and fix the dimensions. -/
def truncateTableChange {σ : Type} (P : Peaker σ) (s : σ) (fuel : Nat)
    (t : TruncateCfg) (records : Records) (cfg : GridConfig)
    (dims : TableDimension) : Records × GridConfig × TableDimension :=
  if records.rows = 0 ∨ records.cols = 0 then (records, cfg, dims)
  else
    let width := t.width
    let wt := getTableWidthsWithTotal records cfg
    if wt.2 ≤ width then (records, cfg, dims)
    else
      let rw := truncateTotalWidth P s fuel records cfg wt.1 wt.2 width t.suffix
      (rw.1, cfg, dims.setWidths rw.2)

/-- `SpanType` from `span.rs`. -/
inductive SpanType where
  | Column : Nat → SpanType
  | Row : Nat → SpanType
deriving DecidableEq, Repr

/-- `set_span` from `span.rs`: dispatch to the column or row span setter. -/
def setSpan (cfg : GridConfig) (shape : Nat × Nat) (pos : Nat × Nat)
    (span : SpanType) : GridConfig :=
  match span with
  | SpanType.Column size => cfg.setColumnSpan shape pos size
  | SpanType.Row size => cfg.setRowSpan shape pos size

/-- `CellOption for Span::change` from `span.rs`: set the span at every
position the entity covers. -/
def spanCellChange (span : SpanType) (records : Records) (cfg : GridConfig)
    (entity : Entity) : GridConfig :=
  (entity.iter records.rows records.cols).foldl
    (fun c pos => setSpan c (records.rows, records.cols) pos span) cfg

/-- `TableOption for WidthList::change` from `width_list.rs`: a list shorter
than the column count is ignored; otherwise it becomes the fixed widths. -/
def widthListChange (list : List Nat) (records : Records)
    (dims : TableDimension) : TableDimension :=
  if list.length < records.cols then dims
  else dims.setWidths list

/-- `Resizable::push_row`: append a row of empty cells. -/
def Records.pushRow (r : Records) : Records :=
  { r with rows := r.rows + 1, data := r.data ++ [List.replicate r.cols []] }

/-- `Resizable::swap_row`. -/
def Records.swapRow (r : Records) (i j : Nat) : Records :=
  let a := r.data.getD i []
  let b := r.data.getD j []
  { r with data := (r.data.set i b).set j a }

/-- `move_rows_aside` from `horizontal_panel.rs`: push a fresh row and bubble
it up to the target index. -/
def moveRowsAside (records : Records) (row : Nat) : Records :=
  let records1 := records.pushRow
  let countRows := records1.rows
  let shiftCount := countRows - row
  (List.range (shiftCount - 1)).foldl (fun recs k =>
    recs.swapRow (countRows - (k + 1)) (countRows - (k + 1) - 1)) records1

/-- `move_row_spans` from `horizontal_panel.rs`: shift every span at or below
the target row one row down. -/
def moveRowSpans (cfg : GridConfig) (shape : Nat × Nat) (targetRow : Nat) :
    GridConfig :=
  let cfg1 := cfg.columnSpans.foldl (fun c e =>
    if e.1.1 ≥ targetRow then
      (c.setColumnSpan shape e.1 1).setColumnSpan shape (e.1.1 + 1, e.1.2) e.2
    else c) cfg
  cfg1.rowSpans.foldl (fun c e =>
    if e.1.1 ≥ targetRow then
      (c.setRowSpan shape e.1 1).setRowSpan shape (e.1.1 + 1, e.1.2) e.2
    else c) cfg1

/-- `TableOption for HorizontalPanel::change` from `horizontal_panel.rs`: a
panel at a row index beyond the row count is ignored; otherwise a row is
inserted, spans are shifted, the text is placed at the row's first cell and
spanned across all columns. -/
def horizontalPanelChange (row : Nat) (text : List Char) (records : Records)
    (cfg : GridConfig) : Records × GridConfig :=
  let countRows := records.rows
  let countCols := records.cols
  if row > countRows then (records, cfg)
  else
    let records1 := moveRowsAside records row
    let cfg1 := moveRowSpans cfg (countRows + 1, countCols) row
    let records2 := records1.set (row, 0) text
    let cfg2 := cfg1.setColumnSpan (countRows + 1, countCols) (row, 0) countCols
    (records2, cfg2)

/-- Horizontal alignment of cell content. -/
inductive Alignment where
  | AlignLeft : Alignment
  | AlignCenter : Alignment
  | AlignRight : Alignment
deriving DecidableEq, Repr

/-- The slice of configuration the modelled renderer reads: the width-level
configuration, a global horizontal alignment, and the set of row boundaries
that carry a horizontal border line. -/
structure RenderConfig where
  cfg : GridConfig
  alignH : Alignment
  horizontals : List Nat
deriving DecidableEq, Repr

/-- Modelled from the spec (missing renderer): align a (tab-free) content
line inside a field of width `w`, filling with spaces. -/
def alignLine (a : Alignment) (w : Nat) (line : List Char) : List Char :=
  let lw := stringWidth line
  let fill := w - lw
  match a with
  | Alignment.AlignLeft => line ++ List.replicate fill ' '
  | Alignment.AlignRight => List.replicate fill ' ' ++ line
  | Alignment.AlignCenter =>
      List.replicate (fill / 2) ' ' ++ line ++ List.replicate (fill - fill / 2) ' '

/-- The tab-expanded lines of a cell's text. -/
def cellLines (text : List Char) (tabWidth : Nat) : List (List Char) :=
  splitLines (replaceTab text tabWidth)

/-- Modelled from the spec: the height of a visual row — the maximum line
count over the row's cells. -/
def rowHeight (r : Records) (cfg : GridConfig) (row : Nat) : Nat :=
  ((List.range r.cols).map (fun c =>
    (cellLines (r.get (row, c)) cfg.tabWidth).length)).foldr max 1

/-- Modelled from the spec: one padded, aligned cell box of width `w`. -/
def renderCellBox (rc : RenderConfig) (w : Nat) (line : List Char) :
    List Char :=
  List.replicate rc.cfg.padLeft ' '
    ++ alignLine rc.alignH (w - (rc.cfg.padLeft + rc.cfg.padRight)) line
    ++ List.replicate rc.cfg.padRight ' '

/-- Modelled from the spec: one content line of a visual row — for every
column a vertical border glyph where one is configured, then the cell box;
then the closing border glyph. -/
def renderContentLine (rc : RenderConfig) (r : Records) (widths : List Nat)
    (row line : Nat) : List Char :=
  (List.range r.cols).flatMap (fun c =>
    (if rc.cfg.hasVertical c then ['|'] else [])
      ++ renderCellBox rc (widths.getD c 0)
          ((cellLines (r.get (row, c)) rc.cfg.tabWidth).getD line []))
    ++ (if rc.cfg.hasVertical r.cols then ['|'] else [])

/-- Modelled from the spec: a horizontal border line — an intersection glyph
at every configured vertical boundary, dashes across every column. -/
def renderBorderLine (rc : RenderConfig) (cols : Nat) (widths : List Nat) :
    List Char :=
  (List.range cols).flatMap (fun c =>
    (if rc.cfg.hasVertical c then ['+'] else [])
      ++ List.replicate (widths.getD c 0) '-')
    ++ (if rc.cfg.hasVertical cols then ['+'] else [])

/-- Modelled from the spec (missing `Grid` renderer, span-free scope): the
rendered lines — nothing for an empty grid; otherwise, per visual row, an
optional horizontal border line followed by `rowHeight` content lines, and
an optional closing border line. -/
def renderLines (rc : RenderConfig) (r : Records) : List (List Char) :=
  if r.rows = 0 ∨ r.cols = 0 then []
  else
    let widths := getTableWidths r rc.cfg
    (List.range r.rows).flatMap (fun row =>
      (if rc.horizontals.contains row then [renderBorderLine rc r.cols widths]
       else [])
        ++ (List.range (rowHeight r rc.cfg row)).map
            (fun line => renderContentLine rc r widths row line))
      ++ (if rc.horizontals.contains r.rows
          then [renderBorderLine rc r.cols widths] else [])

/-- Modelled from the spec: the output string — the rendered lines joined by
newlines, with no trailing newline. -/
def renderText (rc : RenderConfig) (r : Records) : List Char :=
  List.intercalate ['\n'] (renderLines rc r)

/-! ## Basic width lemmas -/

theorem stringWidth_nil : stringWidth [] = 0 := rfl

theorem stringWidth_cons (c : Char) (s : List Char) :
    stringWidth (c :: s) = 1 + stringWidth s := by
  simp [stringWidth, charWidth]

theorem stringWidth_append (s t : List Char) :
    stringWidth (s ++ t) = stringWidth s + stringWidth t := by
  simp [stringWidth]

theorem stringWidth_eq_length (s : List Char) : stringWidth s = s.length := by
  induction s with
  | nil => rfl
  | cons c cs ih => rw [stringWidth_cons, ih]; simp [Nat.add_comm]

theorem stringWidth_replicate (n : Nat) (c : Char) :
    stringWidth (List.replicate n c) = n := by
  rw [stringWidth_eq_length, List.length_replicate]

/-- The cut of a string never exceeds the width budget. -/
theorem stringWidth_cutStr_le (s : List Char) :
    ∀ w, stringWidth (cutStr s w) ≤ w := by
  induction s with
  | nil => intro w; simp [cutStr, stringWidth]
  | cons c cs ih =>
    intro w
    by_cases h : charWidth c ≤ w ∧ 0 < w
    · rw [cutStr, if_pos h, stringWidth_cons]
      have hc := ih (w - charWidth c)
      simp [charWidth] at hc ⊢
      omega
    · rw [cutStr, if_neg h]; simp [stringWidth]

/-- Every character of the cut comes from the original string. -/
theorem cutStr_mem (s : List Char) :
    ∀ w c, c ∈ cutStr s w → c ∈ s := by
  induction s with
  | nil => intro w c h; simp [cutStr] at h
  | cons a cs ih =>
    intro w c h
    by_cases ha : charWidth a ≤ w ∧ 0 < w
    · rw [cutStr, if_pos ha] at h
      rcases List.mem_cons.mp h with h | h
      · exact h ▸ List.mem_cons_self a cs
      · exact List.mem_cons_of_mem a (ih _ c h)
    · rw [cutStr, if_neg ha] at h; simp at h

theorem replaceTab_cons (c : Char) (s : List Char) (tab : Nat) :
    replaceTab (c :: s) tab
      = (if c = '\t' then List.replicate tab ' ' else [c]) ++ replaceTab s tab := by
  simp [replaceTab]

/-- Tab replacement leaves a tab-free string unchanged. -/
theorem replaceTab_eq_of_tabFree (s : List Char) (tab : Nat)
    (h : '\t' ∉ s) : replaceTab s tab = s := by
  induction s with
  | nil => rfl
  | cons c cs ih =>
    have hc : c ≠ '\t' := fun hc => h (hc ▸ List.mem_cons_self c cs)
    have hcs : '\t' ∉ cs := fun hm => h (List.mem_cons_of_mem c hm)
    rw [replaceTab_cons, if_neg hc, ih hcs]
    rfl

/-- The output of tab replacement is tab-free. -/
theorem replaceTab_tabFree (s : List Char) (tab : Nat) :
    '\t' ∉ replaceTab s tab := by
  intro h
  simp only [replaceTab, List.mem_flatMap] at h
  rcases h with ⟨c, _, hc⟩
  by_cases hct : c = '\t'
  · rw [if_pos hct] at hc
    have := List.eq_of_mem_replicate hc
    exact absurd this (by decide)
  · rw [if_neg hct] at hc
    simp at hc
    exact hct (by rw [hc])

theorem stringWidthTab_eq_stringWidth (s : List Char) (tab : Nat)
    (h : '\t' ∉ s) : stringWidthTab s tab = stringWidth s := by
  rw [stringWidthTab, replaceTab_eq_of_tabFree s tab h]

theorem replaceTab_append (s t : List Char) (tab : Nat) :
    replaceTab (s ++ t) tab = replaceTab s tab ++ replaceTab t tab := by
  simp [replaceTab]

theorem stringWidthTab_cons (c : Char) (s : List Char) (tab : Nat) :
    stringWidthTab (c :: s) tab
      = stringWidthTab [c] tab + stringWidthTab s tab := by
  have : (c :: s) = [c] ++ s := rfl
  rw [this, stringWidthTab, replaceTab_append, stringWidth_append]; rfl

/-- `splitLines` always yields at least one line. -/
theorem splitLines_ne_nil (s : List Char) : splitLines s ≠ [] := by
  induction s with
  | nil => simp [splitLines]
  | cons c cs ih =>
    by_cases hc : c = '\n'
    · simp [splitLines, List.foldr, hc]
    · simp only [splitLines, List.foldr] at ih ⊢
      rw [if_neg hc]
      rcases hl : (cs.foldr _ [[]] : List (List Char)) with _ | ⟨l, ls⟩
      · simp
      · simp

theorem splitLines_cons_newline (s : List Char) :
    splitLines ('\n' :: s) = [] :: splitLines s := by
  simp [splitLines, List.foldr]

theorem splitLines_cons_other (c : Char) (s : List Char) (hc : c ≠ '\n')
    (l : List Char) (ls : List (List Char)) (h : splitLines s = l :: ls) :
    splitLines (c :: s) = (c :: l) :: ls := by
  simp only [splitLines, List.foldr] at h ⊢
  rw [if_neg hc, h]

/-- The multi-line width never exceeds the single-line (total) width. -/
theorem stringWidthMultilineTab_le (s : List Char) (tab : Nat) :
    stringWidthMultilineTab s tab ≤ stringWidthTab s tab := by
  induction s with
  | nil =>
    simp [stringWidthMultilineTab, splitLines, stringWidthTab, replaceTab,
      stringWidth]
  | cons c cs ih =>
    by_cases hc : c = '\n'
    · subst hc
      rw [stringWidthMultilineTab, splitLines_cons_newline]
      rw [stringWidthTab_cons]
      simp only [List.map_cons, List.foldr_cons]
      rw [stringWidthMultilineTab] at ih
      have h0 : stringWidthTab [] tab = 0 := rfl
      rw [h0]
      omega
    · rcases hl : splitLines cs with _ | ⟨l, ls⟩
      · exact absurd hl (splitLines_ne_nil cs)
      · rw [stringWidthMultilineTab, splitLines_cons_other c cs hc l ls hl]
        rw [stringWidthTab_cons c cs]
        rw [stringWidthMultilineTab, hl] at ih
        simp only [List.map_cons, List.foldr_cons] at ih ⊢
        rw [stringWidthTab_cons c l]
        omega

theorem stringWidthMultilineTab_nil (tab : Nat) :
    stringWidthMultilineTab [] tab = 0 := by
  simp [stringWidthMultilineTab, splitLines, stringWidthTab, replaceTab,
    stringWidth]

/-! ## Claim C4: the suffix-overflow policy of `make_suffix` -/

/-- Claim C4: for every suffix string and available width `w`, if the visual
width of the suffix is strictly smaller than `w` the suffix is kept and the
content gets `w - width(suffix)` columns; otherwise under `SuffixLimit::Cut`
the suffix is cut to width `w` and the content width becomes 0, under
`SuffixLimit::Ignore` the suffix is dropped and the content keeps width `w`,
and under `SuffixLimit::Replace(c)` the suffix becomes `c` repeated `w` times
and the content width becomes 0. -/
theorem claim_C4 (x : TruncateSuffix) (w tab : Nat) :
    (stringWidthTab x.text tab < w →
      makeSuffix x w tab = (x.text, w - stringWidthTab x.text tab)) ∧
    (¬ stringWidthTab x.text tab < w →
      (x.limit = SuffixLimit.Cut →
        makeSuffix x w tab = (cutStr x.text w, 0)) ∧
      (x.limit = SuffixLimit.Ignore → makeSuffix x w tab = ([], w)) ∧
      (∀ c, x.limit = SuffixLimit.Replace c →
        makeSuffix x w tab = (List.replicate w c, 0))) := by
  constructor
  · intro h
    rw [makeSuffix]
    simp only [if_pos h]
  · intro h
    refine ⟨fun hl => ?_, fun hl => ?_, fun c hl => ?_⟩ <;>
      rw [makeSuffix] <;> simp only [if_neg h] <;> rw [hl]

/-- Witness for C4: on concrete inputs, an overlong dotted suffix is cut to
the available width, and a short one is kept with the width split. -/
theorem claim_C4_witness :
    makeSuffix ⟨['.', '.', '.'], SuffixLimit.Cut⟩ 2 4 = (['.', '.'], 0) ∧
    makeSuffix ⟨['.'], SuffixLimit.Cut⟩ 3 4 = (['.'], 2) := by
  constructor
  · have h := ((claim_C4 ⟨['.', '.', '.'], SuffixLimit.Cut⟩ 2 4).2
      (by decide)).1 rfl
    rw [h]; decide
  · have h := (claim_C4 ⟨['.'], SuffixLimit.Cut⟩ 3 4).1 (by decide)
    rw [h]; decide

/-! ## Claim C10: cells that already fit are left untouched -/

/-- Claim C10: a cell whose tab-expanded multi-line visual width is at most
the truncate width is left byte-for-byte unchanged by the per-cell truncate
operation — the records object is returned as-is. -/
theorem claim_C10 (t : TruncateCfg) (records : Records) (cfg : GridConfig)
    (r c : Nat)
    (h : stringWidthMultilineTab (records.get (r, c)) cfg.tabWidth ≤ t.width) :
    truncateCellChange t records cfg (Entity.Cell r c) = records := by
  rw [truncateCellChange]
  simp only [Entity.iter]
  by_cases hrc : r < records.rows ∧ c < records.cols
  · rw [if_pos hrc]
    simp only [List.foldl_cons, List.foldl_nil]
    rw [if_pos (ge_iff_le.mpr h)]
  · rw [if_neg hrc]
    simp

/-- A concrete 1×1 grid and configuration used by witnesses. -/
def recA : Records := { rows := 1, cols := 1, data := [[['h', 'i']]] }

/-- A default-style configuration: tab width 4, padding 1/1, all vertical
border lines present. -/
def cfgA : GridConfig :=
  { tabWidth := 4, padLeft := 1, padRight := 1, verticals := [0, 1],
    columnSpans := [], rowSpans := [] }

/-- Witness for C10: a 2-wide cell under a width-5 truncate is unchanged. -/
theorem claim_C10_witness :
    truncateCellChange (TruncateCfg.new 5) recA cfgA (Entity.Cell 0 0) = recA :=
  claim_C10 (TruncateCfg.new 5) recA cfgA 0 0 (by decide)

/-! ## Claims C7 and C6: no-op guards of the table-wide truncate -/

/-- A round-robin-free priority policy for witnesses: pick the first column
strictly above its minimum. -/
def firstAbovePeaker : Peaker Unit :=
  ⟨fun s mins widths =>
    ((List.range widths.length).find?
      (fun i => decide (mins.getD i 0 < widths.getD i 0))).map (fun i => (i, s))⟩

/-- Claim C7: when the estimated total width already fits the target, the
table-wide truncate leaves records, configuration and dimensions unchanged. -/
theorem claim_C7 {σ : Type} (P : Peaker σ) (s : σ) (fuel : Nat)
    (t : TruncateCfg) (records : Records) (cfg : GridConfig)
    (dims : TableDimension)
    (h : (getTableWidthsWithTotal records cfg).2 ≤ t.width) :
    truncateTableChange P s fuel t records cfg dims = (records, cfg, dims) := by
  rw [truncateTableChange]
  by_cases he : records.rows = 0 ∨ records.cols = 0
  · rw [if_pos he]
  · rw [if_neg he]
    simp only [if_pos h]

/-- Witness for C7: the 1×1 grid has total width 6, so a width-10 truncate
is an identity on all three objects. -/
theorem claim_C7_witness :
    truncateTableChange firstAbovePeaker () 10 (TruncateCfg.new 10) recA cfgA
      { widths := none } = (recA, cfgA, { widths := none }) :=
  claim_C7 firstAbovePeaker () 10 (TruncateCfg.new 10) recA cfgA
    { widths := none } (by decide)

/-- Claim C6: a record source with zero rows or zero columns renders to the
empty string, and the width adjuster applied to such a source is a no-op on
records, configuration and dimensions. -/
theorem claim_C6 {σ : Type} (P : Peaker σ) (s : σ) (fuel : Nat)
    (t : TruncateCfg) (rc : RenderConfig) (records : Records)
    (cfg : GridConfig) (dims : TableDimension)
    (h : records.rows = 0 ∨ records.cols = 0) :
    renderText rc records = [] ∧
    truncateTableChange P s fuel t records cfg dims = (records, cfg, dims) := by
  constructor
  · rw [renderText, renderLines, if_pos h]
    rfl
  · rw [truncateTableChange, if_pos h]

/-- A render configuration over `cfgA` with left alignment and a horizontal
border at every row boundary. -/
def rcA : RenderConfig :=
  { cfg := cfgA, alignH := Alignment.AlignLeft, horizontals := [0, 1] }

/-- A 0×3 record source. -/
def rec0 : Records := { rows := 0, cols := 3, data := [] }

/-- Witness for C6: a 0×3 source renders empty and the adjuster is inert. -/
theorem claim_C6_witness :
    renderText rcA rec0 = [] ∧
    truncateTableChange firstAbovePeaker () 3 (TruncateCfg.new 1) rec0 cfgA
      { widths := none } = (rec0, cfgA, { widths := none }) :=
  claim_C6 firstAbovePeaker () 3 (TruncateCfg.new 1) rcA rec0 cfgA
    { widths := none } (Or.inl rfl)

/-! ## Claim C9: truncation width bound -/

theorem getD_of_len_le {α : Type} (l : List α) (d : α) :
    ∀ n, l.length ≤ n → l.getD n d = d := by
  induction l with
  | nil => intro n _; cases n <;> rfl
  | cons a t ih =>
    intro n h
    cases n with
    | zero => simp at h
    | succ m => exact ih m (Nat.le_of_succ_le_succ h)

theorem getD_set_self {α : Type} (l : List α) (d a : α) :
    ∀ n, n < l.length → (l.set n a).getD n d = a := by
  induction l with
  | nil => intro n h; simp at h
  | cons b t ih =>
    intro n h
    cases n with
    | zero => rfl
    | succ m => exact ih m (Nat.lt_of_succ_lt_succ h)

/-- Reading back a position that exists in the stored data after `set`. -/
theorem Records.get_set_self (r : Records) (pos : Nat × Nat)
    (text : List Char) (h1 : pos.1 < r.data.length)
    (h2 : pos.2 < (r.data.getD pos.1 []).length) :
    (r.set pos text).get pos = text := by
  rw [Records.set, Records.get]
  simp only
  rw [getD_set_self _ _ _ _ h1, getD_set_self _ _ _ _ h2]

/-- The suffix and leftover width produced by `make_suffix` fit the
available width, and the suffix stays tab-free when its ingredients are. -/
theorem makeSuffix_bound (x : TruncateSuffix) (tw tab : Nat)
    (hx : '\t' ∉ x.text)
    (hrep : ∀ ch, x.limit = SuffixLimit.Replace ch → ch ≠ '\t') :
    stringWidth (makeSuffix x tw tab).1 + (makeSuffix x tw tab).2 ≤ tw ∧
    '\t' ∉ (makeSuffix x tw tab).1 := by
  rw [makeSuffix]
  by_cases h : stringWidthTab x.text tab < tw
  · simp only [if_pos h]
    rw [stringWidthTab_eq_stringWidth x.text tab hx] at h ⊢
    exact ⟨by omega, hx⟩
  · simp only [if_neg h]
    cases hl : x.limit with
    | Ignore => exact ⟨by simp [stringWidth], by simp⟩
    | Cut =>
      refine ⟨?_, fun hm => hx (cutStr_mem x.text tw _ hm)⟩
      have := stringWidth_cutStr_le x.text tw
      simpa using this
    | Replace ch =>
      refine ⟨by simp [stringWidth_replicate], fun hm => ?_⟩
      have := List.eq_of_mem_replicate hm
      exact hrep ch hl this.symm

/-- A cut of a tab-replaced string is tab-free. -/
theorem cutStr_replaceTab_tabFree (s : List Char) (tab w : Nat) :
    '\t' ∉ cutStr (replaceTab s tab) w :=
  fun hm => replaceTab_tabFree s tab (cutStr_mem _ w _ hm)

/-- The text written by the per-cell truncate body fits the truncate width:
`truncate_text` output, measured multi-line and tab-expanded. -/
theorem truncateText_bound (text : List Char) (tab tw w : Nat)
    (suffix : List Char) (hsw : stringWidth suffix + w ≤ tw)
    (hsf : '\t' ∉ suffix) :
    stringWidthMultilineTab (truncateText (replaceTab text tab) w suffix) tab
      ≤ tw := by
  have hcut := stringWidth_cutStr_le (replaceTab text tab) w
  have hfree : '\t' ∉ cutStr (replaceTab text tab) w :=
    cutStr_replaceTab_tabFree text tab w
  rw [truncateText]
  by_cases hs : suffix = []
  · rw [if_pos hs]
    calc stringWidthMultilineTab (cutStr (replaceTab text tab) w) tab
        ≤ stringWidthTab (cutStr (replaceTab text tab) w) tab :=
          stringWidthMultilineTab_le _ tab
      _ = stringWidth (cutStr (replaceTab text tab) w) :=
          stringWidthTab_eq_stringWidth _ tab hfree
      _ ≤ w := hcut
      _ ≤ tw := by omega
  · rw [if_neg hs]
    have hfree2 : '\t' ∉ cutStr (replaceTab text tab) w ++ suffix := by
      intro hm
      rcases List.mem_append.mp hm with hm | hm
      · exact hfree hm
      · exact hsf hm
    calc stringWidthMultilineTab (cutStr (replaceTab text tab) w ++ suffix) tab
        ≤ stringWidthTab (cutStr (replaceTab text tab) w ++ suffix) tab :=
          stringWidthMultilineTab_le _ tab
      _ = stringWidth (cutStr (replaceTab text tab) w ++ suffix) :=
          stringWidthTab_eq_stringWidth _ tab hfree2
      _ = stringWidth (cutStr (replaceTab text tab) w) + stringWidth suffix :=
          stringWidth_append _ _
      _ ≤ tw := by omega

/-- A 1×1 grid holding the 4-wide cell `abcd`. -/
def recC9 : Records := { rows := 1, cols := 1, data := [[['a', 'b', 'c', 'd']]] }

/-- Counterexample to C9 as stated: truncating the cell `abcd` to width 2
with the suffix `"\t"` under the default `SuffixLimit::Cut` produces the
text `"\t"`, whose tab-expanded visual width is 4 > 2 — the suffix cut is
not tab-aware, so the produced string is wider than the requested width. -/
theorem claim_C9_counterexample :
    ¬ stringWidthMultilineTab
        ((truncateCellChange { width := 2, suffix := some ⟨['\t'], SuffixLimit.Cut⟩ }
          recC9 cfgA (Entity.Cell 0 0)).get (0, 0)) cfgA.tabWidth ≤ 2 := by
  decide

/-- Claim C9 (amended): for every cell text and target width `w`, if the
configured suffix text contains no tab character (and a `Replace` fill
character is not a tab), the text produced by the per-cell truncate for a
cell that is actually truncated has tab-expanded multi-line visual width at
most `w`. -/
theorem claim_C9_amended (t : TruncateCfg) (records : Records)
    (cfg : GridConfig) (r c : Nat) (hr : r < records.rows)
    (hc : c < records.cols)
    (hcut : t.width < stringWidthMultilineTab (records.get (r, c)) cfg.tabWidth)
    (hsuf : ∀ x, t.suffix = some x → '\t' ∉ x.text ∧
      ∀ ch, x.limit = SuffixLimit.Replace ch → ch ≠ '\t') :
    stringWidthMultilineTab
      ((truncateCellChange t records cfg (Entity.Cell r c)).get (r, c))
      cfg.tabWidth ≤ t.width := by
  have hne : records.get (r, c) ≠ [] := by
    intro h0
    rw [h0, stringWidthMultilineTab_nil] at hcut
    omega
  have hd1 : r < records.data.length := by
    by_contra hx
    push_neg at hx
    apply hne
    rw [Records.get]
    rw [getD_of_len_le _ _ _ hx]
    exact getD_of_len_le _ _ _ (by simp)
  have hd2 : c < (records.data.getD r []).length := by
    by_contra hx
    push_neg at hx
    apply hne
    rw [Records.get]
    exact getD_of_len_le _ _ _ hx
  rcases hs : t.suffix with _ | x
  · simp only [truncateCellChange, Entity.iter, hs,
      if_pos (show r < records.rows ∧ c < records.cols from ⟨hr, hc⟩),
      List.foldl_cons, List.foldl_nil]
    rw [if_neg (not_le.mpr hcut)]
    rw [Records.get_set_self records (r, c) _ hd1 hd2]
    by_cases h0 : t.width = 0
    · rw [if_pos h0, if_pos h0, stringWidthMultilineTab_nil]
      omega
    · rw [if_neg h0]
      exact truncateText_bound _ _ t.width t.width []
        (by simp [stringWidth]) (by simp)
  · rcases hsuf x hs with ⟨hx1, hx2⟩
    have hb := makeSuffix_bound x t.width cfg.tabWidth hx1 hx2
    simp only [truncateCellChange, Entity.iter, hs,
      if_pos (show r < records.rows ∧ c < records.cols from ⟨hr, hc⟩),
      List.foldl_cons, List.foldl_nil]
    rw [if_neg (not_le.mpr hcut)]
    rw [Records.get_set_self records (r, c) _ hd1 hd2]
    by_cases h0 : (makeSuffix x t.width cfg.tabWidth).2 = 0
    · rw [if_pos h0]
      by_cases h1 : t.width = 0
      · rw [if_pos h1, stringWidthMultilineTab_nil]
        omega
      · rw [if_neg h1]
        calc stringWidthMultilineTab (makeSuffix x t.width cfg.tabWidth).1
              cfg.tabWidth
            ≤ stringWidthTab (makeSuffix x t.width cfg.tabWidth).1
              cfg.tabWidth := stringWidthMultilineTab_le _ _
          _ = stringWidth (makeSuffix x t.width cfg.tabWidth).1 :=
              stringWidthTab_eq_stringWidth _ _ hb.2
          _ ≤ t.width := by have := hb.1; omega
    · rw [if_neg h0]
      exact truncateText_bound _ _ t.width _ _ hb.1 hb.2

/-- Witness for the amended C9: truncating `abcd` to width 2 with a dot
suffix yields a text of visual width at most 2 (namely `.` ++ one char). -/
theorem claim_C9_amended_witness :
    stringWidthMultilineTab
      ((truncateCellChange { width := 2, suffix := some ⟨['.'], SuffixLimit.Cut⟩ }
        recC9 cfgA (Entity.Cell 0 0)).get (0, 0)) cfgA.tabWidth ≤ 2 :=
  claim_C9_amended { width := 2, suffix := some ⟨['.'], SuffixLimit.Cut⟩ }
    recC9 cfgA 0 0 (by decide) (by decide) (by decide)
    (fun x hx => by
      cases hx
      exact ⟨by decide, fun ch hch => by cases hch⟩)

/-! ## Claim C5: the calibration scenario, `width(4)` per cell -/

/-- The two-column, five-row calibration grid (header plus four data rows). -/
def calGrid : Records :=
  { rows := 5, cols := 2,
    data := [["Year".toList, "Level".toList],
             ["2021".toList, "Level 1".toList],
             ["2021".toList, "Level 2".toList],
             ["2021".toList, "Level 3".toList],
             ["2021".toList, "Level 4".toList]] }

/-- The calibration grid after every cell is truncated to 2 visible
characters. -/
def calGridCut : Records :=
  { rows := 5, cols := 2,
    data := [["Ye".toList, "Le".toList],
             ["20".toList, "Le".toList],
             ["20".toList, "Le".toList],
             ["20".toList, "Le".toList],
             ["20".toList, "Le".toList]] }

/-- Claim C5: with per-column widths fixed at 4 and default padding 1/1, the
cell-rewrite pipeline of `truncate_total_width` hands every cell of the
calibration grid an available content width of 4 − 2 = 2 (padding is
subtracted in `get_decrease_cell_list`), and every cell's text is truncated
to its first 2 visible characters: `"2021"` becomes `"20"`, `"Level 1"`
becomes `"Le"`, etc. -/
theorem claim_C5 :
    ((1, 0), 2) ∈ getDecreaseCellList cfgA [4, 4]
      (getTableWidths (emptyRecords 5 2) cfgA) (5, 2) ∧
    truncateTotalWidth firstAbovePeaker () 1 calGrid cfgA [4, 4] 13 13 none
      = (calGridCut, [4, 4]) := by
  constructor
  · decide
  · decide

/-! ## Claim C2: the line-width invariant of the renderer -/

theorem sum_map_add {α : Type} (L : List α) (f g : α → Nat) :
    (L.map (fun a => f a + g a)).sum = (L.map f).sum + (L.map g).sum := by
  induction L with
  | nil => rfl
  | cons a t ih => simp [ih]; omega

theorem sum_indicator_eq_length_filter {α : Type} (L : List α) (p : α → Bool) :
    (L.map (fun a => if p a then 1 else 0)).sum = (L.filter p).length := by
  induction L with
  | nil => rfl
  | cons a t ih =>
    by_cases h : p a
    · simp [List.filter_cons, h, ih]
      omega
    · simp [List.filter_cons, h, ih]

theorem sum_range_getD (l : List Nat) :
    ((List.range l.length).map (fun i => l.getD i 0)).sum = l.sum := by
  induction l with
  | nil => rfl
  | cons a t ih =>
    rw [List.length_cons, List.range_succ_eq_map, List.map_cons, List.map_map]
    have : ((a :: t).getD · 0) ∘ (· + 1) = (t.getD · 0) := by
      funext i; rfl
    rw [this, List.sum_cons, ih]
    rfl

theorem indicator_closing (p : Nat → Bool) (n : Nat) :
    ((List.range n).map (fun i => if p i then 1 else 0)).sum
        + (if p n then 1 else 0)
      = ((List.range (n + 1)).filter p).length := by
  rw [← sum_indicator_eq_length_filter, List.range_succ, List.map_append,
    List.sum_append]
  simp

theorem le_foldr_max (L : List Nat) (x : Nat) (h : x ∈ L) :
    ∀ a, x ≤ L.foldr max a := by
  induction L with
  | nil => cases h
  | cons b t ih =>
    intro a
    rcases List.mem_cons.mp h with rfl | h
    · exact Nat.le_max_left _ _
    · exact Nat.le_trans (ih h a) (Nat.le_max_right _ _)

theorem getD_mem_or_default {α : Type} (L : List α) (d : α) (k : Nat) :
    L.getD k d ∈ L ∨ L.getD k d = d := by
  by_cases h : k < L.length
  · left
    rw [List.getD_eq_getElem L d h]
    exact L.getElem_mem h
  · right
    exact getD_of_len_le _ _ _ (Nat.le_of_not_lt h)

/-- Splitting into lines commutes with tab expansion. -/
theorem splitLines_replaceTab (s : List Char) (tab : Nat) :
    splitLines (replaceTab s tab)
      = (splitLines s).map (fun l => replaceTab l tab) := by
  induction s with
  | nil => rfl
  | cons c cs ih =>
    by_cases hn : c = '\n'
    · subst hn
      rw [replaceTab_cons]
      rw [if_neg (by decide)]
      have : (['\n'] : List Char) ++ replaceTab cs tab
          = '\n' :: replaceTab cs tab := rfl
      rw [this, splitLines_cons_newline, splitLines_cons_newline, ih,
        List.map_cons]
      rfl
    · rcases hl : splitLines cs with _ | ⟨l, ls⟩
      · exact absurd hl (splitLines_ne_nil cs)
      · rw [splitLines_cons_other c cs hn l ls hl, List.map_cons]
        by_cases ht : c = '\t'
        · subst ht
          rw [replaceTab_cons, if_pos rfl]
          rw [replaceTab_cons, if_pos rfl]
          have key : ∀ (n : Nat) (u : List Char) (l1 : List Char)
              (ls1 : List (List Char)), splitLines u = l1 :: ls1 →
              splitLines (List.replicate n ' ' ++ u)
                = (List.replicate n ' ' ++ l1) :: ls1 := by
            intro n
            induction n with
            | zero => intro u l1 ls1 h; simpa using h
            | succ m ihm =>
              intro u l1 ls1 h
              rw [List.replicate_succ, List.cons_append, List.cons_append]
              rw [splitLines_cons_other ' ' _ (by decide) _ _ (ihm u l1 ls1 h)]
          have hl2 : splitLines (replaceTab cs tab)
              = replaceTab l tab :: ls.map (fun l => replaceTab l tab) := by
            rw [ih, hl, List.map_cons]
          rw [key tab _ _ _ hl2]
        · rw [replaceTab_cons, if_neg ht, replaceTab_cons, if_neg ht]
          have : ([c] : List Char) ++ replaceTab cs tab
              = c :: replaceTab cs tab := rfl
          rw [this]
          have hl2 : splitLines (replaceTab cs tab)
              = replaceTab l tab :: ls.map (fun l => replaceTab l tab) := by
            rw [ih, hl, List.map_cons]
          rw [splitLines_cons_other c _ hn _ _ hl2]
          rfl

/-- Every displayed line of a cell fits under the cell's multi-line width. -/
theorem cellLine_width_le (text : List Char) (tab k : Nat) :
    stringWidth ((cellLines text tab).getD k [])
      ≤ stringWidthMultilineTab text tab := by
  have hcl : cellLines text tab
      = (splitLines text).map (fun l => replaceTab l tab) := by
    rw [cellLines, splitLines_replaceTab]
  rw [hcl]
  rcases getD_mem_or_default
      ((splitLines text).map (fun l => replaceTab l tab)) [] k with h | h
  · rcases List.mem_map.mp h with ⟨l0, hl0, heq⟩
    rw [← heq]
    have : stringWidth (replaceTab l0 tab) = stringWidthTab l0 tab := rfl
    rw [this]
    rw [stringWidthMultilineTab]
    have hmem : stringWidthTab l0 tab
        ∈ (splitLines text).map (fun l => stringWidthTab l tab) :=
      List.mem_map_of_mem _ hl0
    exact le_foldr_max _ _ hmem 0
  · rw [h]
    exact Nat.zero_le _

/-- The aligned field has exactly the field width when the content fits. -/
theorem alignLine_length (a : Alignment) (w : Nat) (l : List Char)
    (h : stringWidth l ≤ w) : (alignLine a w l).length = w := by
  have hl : stringWidth l = l.length := stringWidth_eq_length l
  cases a <;> simp [alignLine] <;> omega

theorem renderCellBox_length (rc : RenderConfig) (w : Nat) (l : List Char)
    (h1 : stringWidth l ≤ w - (rc.cfg.padLeft + rc.cfg.padRight))
    (h2 : rc.cfg.padLeft + rc.cfg.padRight ≤ w) :
    (renderCellBox rc w l).length = w := by
  rw [renderCellBox, List.length_append, List.length_append,
    alignLine_length _ _ _ h1, List.length_replicate, List.length_replicate]
  omega

theorem renderBorderLine_length (rc : RenderConfig) (cols : Nat)
    (widths : List Nat) (hlen : widths.length = cols) :
    (renderBorderLine rc cols widths).length
      = widths.sum + totalBorderCount rc.cfg cols := by
  rw [renderBorderLine, List.length_append, List.length_flatMap]
  have hpiece : (List.length ∘ fun c =>
      (if rc.cfg.hasVertical c then ['+'] else [])
        ++ List.replicate (widths.getD c 0) '-')
      = fun c => (if rc.cfg.hasVertical c then 1 else 0) + widths.getD c 0 := by
    funext c
    by_cases h : rc.cfg.hasVertical c
    · simp only [Function.comp_apply, if_pos h, List.length_append,
        List.length_cons, List.length_nil, List.length_replicate]
    · simp only [Function.comp_apply, if_neg h, List.length_append,
        List.length_nil, List.length_replicate]
  rw [hpiece, sum_map_add]
  have h1 : ((List.range cols).map (fun i => widths.getD i 0)).sum
      = widths.sum := by
    rw [← hlen]
    exact sum_range_getD widths
  have h2 : ((List.range cols).map
        (fun c => if rc.cfg.hasVertical c then 1 else 0)).sum
      + (if rc.cfg.hasVertical cols then 1 else 0)
      = ((List.range (cols + 1)).filter
          (fun i => rc.cfg.hasVertical i)).length :=
    indicator_closing _ cols
  have h3 : (if rc.cfg.hasVertical cols then [('+' : Char)] else []).length
      = (if rc.cfg.hasVertical cols then 1 else 0) := by
    by_cases h : rc.cfg.hasVertical cols
    · rw [if_pos h, if_pos h]
      rfl
    · rw [if_neg h, if_neg h]
      rfl
  rw [totalBorderCount, h3, h1]
  omega

theorem renderContentLine_length (rc : RenderConfig) (r : Records)
    (widths : List Nat) (row ln : Nat) (hlen : widths.length = r.cols)
    (hw : ∀ c, c < r.cols → rc.cfg.padLeft + rc.cfg.padRight
      + stringWidth ((cellLines (r.get (row, c)) rc.cfg.tabWidth).getD ln [])
      ≤ widths.getD c 0) :
    (renderContentLine rc r widths row ln).length
      = widths.sum + totalBorderCount rc.cfg r.cols := by
  rw [renderContentLine, List.length_append, List.length_flatMap]
  have hpiece : ∀ c ∈ List.range r.cols,
      (List.length ∘ fun c =>
        (if rc.cfg.hasVertical c then ['|'] else [])
          ++ renderCellBox rc (widths.getD c 0)
              ((cellLines (r.get (row, c)) rc.cfg.tabWidth).getD ln [])) c
      = (fun c => (if rc.cfg.hasVertical c then 1 else 0) + widths.getD c 0) c := by
    intro c hc
    have hcc := hw c (List.mem_range.mp hc)
    have hbox := renderCellBox_length rc (widths.getD c 0)
      ((cellLines (r.get (row, c)) rc.cfg.tabWidth).getD ln [])
      (by omega) (by omega)
    by_cases h : rc.cfg.hasVertical c
    · simp only [Function.comp_apply, if_pos h, List.length_append,
        List.length_cons, List.length_nil]
      rw [hbox]
    · simp only [Function.comp_apply, if_neg h, List.length_append,
        List.length_nil]
      rw [hbox]
  rw [List.map_congr_left hpiece, sum_map_add]
  have h1 : ((List.range r.cols).map (fun i => widths.getD i 0)).sum
      = widths.sum := by
    rw [← hlen]
    exact sum_range_getD widths
  have h2 : ((List.range r.cols).map
        (fun c => if rc.cfg.hasVertical c then 1 else 0)).sum
      + (if rc.cfg.hasVertical r.cols then 1 else 0)
      = ((List.range (r.cols + 1)).filter
          (fun i => rc.cfg.hasVertical i)).length :=
    indicator_closing _ r.cols
  have h3 : (if rc.cfg.hasVertical r.cols then [('|' : Char)] else []).length
      = (if rc.cfg.hasVertical r.cols then 1 else 0) := by
    by_cases h : rc.cfg.hasVertical r.cols
    · rw [if_pos h, if_pos h]
      rfl
    · rw [if_neg h, if_neg h]
      rfl
  rw [totalBorderCount, h3, h1]
  omega

/-- Claim C2: every line of the rendered output (no truncation applied) has
visual width equal to the sum of the estimated column widths plus the number
of border glyphs — the same total for every line. -/
theorem claim_C2 (rc : RenderConfig) (r : Records) (line : List Char)
    (h : line ∈ renderLines rc r) :
    stringWidth line
      = (getTableWidths r rc.cfg).sum + totalBorderCount rc.cfg r.cols := by
  have hlen : (getTableWidths r rc.cfg).length = r.cols := by
    rw [getTableWidths]
    simp
  have hb := renderBorderLine_length rc r.cols (getTableWidths r rc.cfg) hlen
  rw [stringWidth_eq_length]
  rw [renderLines] at h
  by_cases hemp : r.rows = 0 ∨ r.cols = 0
  · rw [if_pos hemp] at h
    cases h
  · rw [if_neg hemp] at h
    rcases List.mem_append.mp h with h | h
    · rcases List.mem_flatMap.mp h with ⟨row, hrow, hline⟩
      rcases List.mem_append.mp hline with h2 | h2
      · by_cases hcont : rc.horizontals.contains row
        · rw [if_pos hcont] at h2
          have := List.mem_singleton.mp h2
          subst this
          exact hb
        · rw [if_neg hcont] at h2
          cases h2
      · rcases List.mem_map.mp h2 with ⟨ln, hln, hEq⟩
        subst hEq
        apply renderContentLine_length rc r _ row ln hlen
        intro c hc
        have hgd : (getTableWidths r rc.cfg).getD c 0
            = ((List.range r.rows).map (fun row =>
                stringWidthMultilineTab (r.get (row, c)) rc.cfg.tabWidth)).foldr
                max 0 + rc.cfg.padLeft + rc.cfg.padRight := by
          rw [getTableWidths]
          rw [List.getD_eq_getElem _ _ (by simpa using hc)]
          simp
        have hmax : stringWidthMultilineTab (r.get (row, c)) rc.cfg.tabWidth
            ≤ ((List.range r.rows).map (fun row =>
                stringWidthMultilineTab (r.get (row, c)) rc.cfg.tabWidth)).foldr
                max 0 := by
          have hmem : stringWidthMultilineTab (r.get (row, c)) rc.cfg.tabWidth
              ∈ (List.range r.rows).map (fun row =>
                stringWidthMultilineTab (r.get (row, c)) rc.cfg.tabWidth) :=
            List.mem_map_of_mem _ hrow
          exact le_foldr_max _ _ hmem 0
        have hline2 := cellLine_width_le (r.get (row, c)) rc.cfg.tabWidth ln
        rw [hgd]
        omega
    · by_cases hcont : rc.horizontals.contains r.rows
      · rw [if_pos hcont] at h
        have := List.mem_singleton.mp h
        subst this
        exact hb
      · rw [if_neg hcont] at h
        cases h

/-- Witness for C2: the content line of the rendered 1×1 `hi` table has
width 4 + 2 border glyphs = 6. -/
theorem claim_C2_witness :
    stringWidth "| hi |".toList
      = (getTableWidths recA rcA.cfg).sum + totalBorderCount rcA.cfg recA.cols :=
  claim_C2 rcA recA _ (by decide)

/-! ## Claim C3: out-of-range configuration requests are silently ignored -/

/-- Claim C3: (a) a `WidthList` shorter than the column count leaves the
dimensions unchanged; (b) a column `Span` at an out-of-grid position or with
size exceeding the column count leaves the configuration unchanged, and
likewise (c) a row `Span` against the row count; (d) a `HorizontalPanel` at
a row index greater than the row count leaves records and configuration
unchanged.  None of these produce an error. -/
theorem claim_C3 :
    (∀ (list : List Nat) (records : Records) (dims : TableDimension),
      list.length < records.cols → widthListChange list records dims = dims) ∧
    (∀ (records : Records) (cfg : GridConfig) (r c size : Nat),
      records.rows ≤ r ∨ records.cols ≤ c ∨ records.cols < size →
      spanCellChange (SpanType.Column size) records cfg (Entity.Cell r c)
        = cfg) ∧
    (∀ (records : Records) (cfg : GridConfig) (r c size : Nat),
      records.rows ≤ r ∨ records.cols ≤ c ∨ records.rows < size →
      spanCellChange (SpanType.Row size) records cfg (Entity.Cell r c)
        = cfg) ∧
    (∀ (row : Nat) (text : List Char) (records : Records) (cfg : GridConfig),
      records.rows < row →
      horizontalPanelChange row text records cfg = (records, cfg)) := by
  refine ⟨?_, ?_, ?_, ?_⟩
  · intro list records dims h
    rw [widthListChange, if_pos h]
  · intro records cfg r c size h
    rw [spanCellChange, Entity.iter]
    by_cases hin : r < records.rows ∧ c < records.cols
    · rw [if_pos hin, List.foldl_cons, List.foldl_nil, setSpan,
        GridConfig.setColumnSpan,
        if_neg (by intro hx; rcases hx with ⟨hx1, hx2, hx3⟩; omega)]
    · rw [if_neg hin, List.foldl_nil]
  · intro records cfg r c size h
    rw [spanCellChange, Entity.iter]
    by_cases hin : r < records.rows ∧ c < records.cols
    · rw [if_pos hin, List.foldl_cons, List.foldl_nil, setSpan,
        GridConfig.setRowSpan,
        if_neg (by intro hx; rcases hx with ⟨hx1, hx2, hx3⟩; omega)]
    · rw [if_neg hin, List.foldl_nil]
  · intro row text records cfg h
    rw [horizontalPanelChange, if_pos (by omega)]

/-- Witness for C3: the four ignored requests on the calibration grid. -/
theorem claim_C3_witness :
    widthListChange [3] calGrid { widths := none } = { widths := none } ∧
    spanCellChange (SpanType.Column 5) calGrid cfgA (Entity.Cell 0 0) = cfgA ∧
    spanCellChange (SpanType.Row 9) calGrid cfgA (Entity.Cell 0 0) = cfgA ∧
    horizontalPanelChange 7 "p".toList calGrid cfgA = (calGrid, cfgA) :=
  ⟨claim_C3.1 [3] calGrid { widths := none } (by decide),
   claim_C3.2.1 calGrid cfgA 0 0 5 (by decide),
   claim_C3.2.2.1 calGrid cfgA 0 0 9 (by decide),
   claim_C3.2.2.2 7 "p".toList calGrid cfgA (by decide)⟩

/-! ## Claims C1 and C8: the `decrease_widths` loop -/

/-- A priority policy is well behaved for a given minimal-width list when,
whenever some column is strictly above its minimum, it picks such a column
(the spec's "skipping columns already at their minimum"). -/
def GoodPeaker {σ : Type} (P : Peaker σ) (mins : List Nat) : Prop :=
  ∀ (s : σ) (widths : List Nat),
    (∃ i, i < widths.length ∧ mins.getD i 0 < widths.getD i 0) →
    ∃ col s1, P.peak s mins widths = some (col, s1) ∧
      col < widths.length ∧ mins.getD col 0 < widths.getD col 0

/-- The first-fit policy is well behaved. -/
theorem firstAbovePeaker_good (mins : List Nat) :
    GoodPeaker firstAbovePeaker mins := by
  intro s widths h
  rcases h with ⟨i, hi, hlt⟩
  have hsome : ((List.range widths.length).find?
      (fun i => decide (mins.getD i 0 < widths.getD i 0))).isSome := by
    rw [List.find?_isSome]
    exact ⟨i, List.mem_range.mpr hi, by simpa using hlt⟩
  rcases Option.isSome_iff_exists.mp hsome with ⟨col, hcol⟩
  refine ⟨col, s, ?_, ?_, ?_⟩
  · show (((List.range widths.length).find?
        (fun i => decide (mins.getD i 0 < widths.getD i 0))).map
        (fun i => (i, s))) = some (col, s)
    rw [hcol]
    rfl
  · exact List.mem_range.mp (List.mem_of_find?_eq_some hcol)
  · simpa using List.find?_some hcol

theorem getD_set_ne {α : Type} (l : List α) (d a : α) :
    ∀ i j, i ≠ j → (l.set i a).getD j d = l.getD j d := by
  induction l with
  | nil => intro i j _; rfl
  | cons b t ih =>
    intro i j hij
    cases i with
    | zero =>
      cases j with
      | zero => exact absurd rfl hij
      | succ m => rfl
    | succ k =>
      cases j with
      | zero => rfl
      | succ m => exact ih k m (fun h => hij (by rw [h]))

theorem sum_set_sub (l : List Nat) :
    ∀ col, col < l.length → 0 < l.getD col 0 →
      (l.set col (l.getD col 0 - 1)).sum + 1 = l.sum := by
  induction l with
  | nil => intro col h _; simp at h
  | cons a t ih =>
    intro col hcol hpos
    cases col with
    | zero =>
      simp only [List.set_cons_zero, List.sum_cons]
      have : (a :: t).getD 0 0 = a := rfl
      rw [this] at hpos ⊢
      omega
    | succ k =>
      simp only [List.set_cons_succ, List.sum_cons]
      have h1 : (a :: t).getD (k + 1) 0 = t.getD k 0 := rfl
      rw [h1] at hpos ⊢
      have := ih k (by simpa using Nat.lt_of_succ_lt_succ hcol) hpos
      omega

theorem sum_le_sum_of_getD (l1 : List Nat) :
    ∀ l2 : List Nat, l1.length = l2.length →
      (∀ i, i < l1.length → l1.getD i 0 ≤ l2.getD i 0) → l1.sum ≤ l2.sum := by
  induction l1 with
  | nil => intro l2 _ _; exact Nat.zero_le _
  | cons a t ih =>
    intro l2 hlen h
    cases l2 with
    | nil => simp at hlen
    | cons b t2 =>
      have h0 : a ≤ b := h 0 (by simp)
      have ht : t.sum ≤ t2.sum := by
        refine ih t2 (by simpa using hlen) ?_
        intro i hi
        exact h (i + 1) (by simpa using Nat.succ_lt_succ hi)
      simp only [List.sum_cons]
      omega

theorem list_eq_of_getD (l1 : List Nat) :
    ∀ l2 : List Nat, l1.length = l2.length →
      (∀ i, i < l1.length → l1.getD i 0 = l2.getD i 0) → l1 = l2 := by
  induction l1 with
  | nil =>
    intro l2 hlen _
    cases l2 with
    | nil => rfl
    | cons b t2 => simp at hlen
  | cons a t ih =>
    intro l2 hlen h
    cases l2 with
    | nil => simp at hlen
    | cons b t2 =>
      have h0 : a = b := h 0 (by simp)
      have ht : t = t2 := by
        refine ih t2 (by simpa using hlen) ?_
        intro i hi
        exact h (i + 1) (by simpa using Nat.succ_lt_succ hi)
      rw [h0, ht]

theorem length_filter_update (p q : Nat → Bool) (col : Nat) :
    ∀ n, col < n → (∀ i, i ≠ col → p i = q i) → p col = false →
      ((List.range n).filter q).length
        = ((List.range n).filter p).length + (if q col then 1 else 0) := by
  intro n
  induction n with
  | zero => intro h _ _; simp at h
  | succ m ihm =>
    intro hcol hpq hp
    rw [List.range_succ, List.filter_append, List.filter_append,
      List.length_append, List.length_append]
    by_cases hcm : col = m
    · subst hcm
      have hfeq : (List.range col).filter p = (List.range col).filter q := by
        apply List.filter_congr
        intro a ha
        exact hpq a (fun h => by rw [h] at ha; exact absurd (List.mem_range.mp ha) (lt_irrefl col))
      rw [← hfeq]
      by_cases hq : q col
      · simp [hq, hp]
      · simp [hq, hp]
    · have hlt : col < m := by omega
      have hm : p m = q m := hpq m (fun h => hcm h.symm)
      have hsing : ∀ f : Nat → Bool,
          (List.filter f [m]).length = if f m then 1 else 0 := by
        intro f
        by_cases hf : f m <;> simp [hf]
      rw [ihm hlt hpq hp, hsing, hsing, hm]
      omega

/-- If not every column counts as empty, some column sits strictly above
its minimum. -/
theorem exists_above_of_countEmpty_ne (mins widths : List Nat)
    (h : countEmpty mins widths ≠ widths.length) :
    ∃ i, i < widths.length ∧ mins.getD i 0 < widths.getD i 0 := by
  by_contra hx
  push_neg at hx
  apply h
  rw [countEmpty]
  have hall : (List.range widths.length).filter (fun col =>
      decide (widths.getD col 0 = 0 ∨ widths.getD col 0 ≤ mins.getD col 0))
      = List.range widths.length := by
    apply List.filter_eq_self.mpr
    intro a ha
    have hla := hx a (List.mem_range.mp ha)
    simp only [decide_eq_true_eq]
    right
    exact hla
  rw [hall, List.length_range]

/-- If every column counts as empty, each is at zero or at its minimum. -/
theorem all_empty_of_countEmpty_eq (mins widths : List Nat)
    (h : countEmpty mins widths = widths.length) :
    ∀ i, i < widths.length →
      widths.getD i 0 = 0 ∨ widths.getD i 0 ≤ mins.getD i 0 := by
  rw [countEmpty] at h
  have hsub := List.filter_sublist (l := List.range widths.length)
    (p := fun col =>
      decide (widths.getD col 0 = 0 ∨ widths.getD col 0 ≤ mins.getD col 0))
  have heq := hsub.eq_of_length (by rw [h, List.length_range])
  intro i hi
  have hmem : i ∈ List.range widths.length := List.mem_range.mpr hi
  rw [← heq] at hmem
  have := (List.mem_filter.mp hmem).2
  simpa using this

/-- Decrementing a non-empty column adds to the empty count exactly when the
column becomes empty. -/
theorem countEmpty_set (mins widths : List Nat) (col : Nat)
    (hcol : col < widths.length)
    (hold : ¬(widths.getD col 0 = 0 ∨ widths.getD col 0 ≤ mins.getD col 0)) :
    countEmpty mins (widths.set col (widths.getD col 0 - 1))
      = countEmpty mins widths
        + (if (widths.set col (widths.getD col 0 - 1)).getD col 0 = 0 ∨
              (widths.set col (widths.getD col 0 - 1)).getD col 0
                ≤ mins.getD col 0
           then 1 else 0) := by
  rw [countEmpty, countEmpty, List.length_set]
  have hupd := length_filter_update
    (fun i => decide (widths.getD i 0 = 0 ∨ widths.getD i 0 ≤ mins.getD i 0))
    (fun i => decide
      ((widths.set col (widths.getD col 0 - 1)).getD i 0 = 0 ∨
        (widths.set col (widths.getD col 0 - 1)).getD i 0 ≤ mins.getD i 0))
    col widths.length hcol
    (by
      intro i hi
      have hsame : (widths.set col (widths.getD col 0 - 1)).getD i 0
          = widths.getD i 0 := getD_set_ne widths 0 _ col i (fun h => hi h.symm)
      show decide (widths.getD i 0 = 0 ∨ widths.getD i 0 ≤ mins.getD i 0)
          = decide ((widths.set col (widths.getD col 0 - 1)).getD i 0 = 0 ∨
            (widths.set col (widths.getD col 0 - 1)).getD i 0 ≤ mins.getD i 0)
      rw [hsame])
    (decide_eq_false hold)
  rw [hupd]
  by_cases hq : (widths.set col (widths.getD col 0 - 1)).getD col 0 = 0 ∨
      (widths.set col (widths.getD col 0 - 1)).getD col 0 ≤ mins.getD col 0
  · rw [if_pos hq, if_pos (by simpa using hq)]
  · rw [if_neg hq, if_neg (by simpa using hq)]

/-- The full specification of the `decrease_widths` loop body under a
well-behaved priority policy and sufficient fuel: the result keeps the
column count, every column stays between its minimum and its initial width,
and either the running width counter reaches `totalWidth` exactly (one unit
per decrement) or the loop stopped early with every column exactly at its
minimum while the counter was still short of `totalWidth`. -/
theorem decLoop_main {σ : Type} (P : Peaker σ) (mins : List Nat)
    (totalWidth : Nat) (hP : GoodPeaker P mins) :
    ∀ (fuel : Nat) (widths : List Nat) (width : Nat) (s : σ) (R : List Nat),
      widths.length = mins.length →
      (∀ i, i < widths.length → mins.getD i 0 ≤ widths.getD i 0) →
      width ≤ totalWidth →
      totalWidth - width < fuel →
      decLoop P mins totalWidth fuel widths (countEmpty mins widths) width s
        = R →
      R.length = widths.length ∧
      (∀ i, i < widths.length →
        mins.getD i 0 ≤ R.getD i 0 ∧ R.getD i 0 ≤ widths.getD i 0) ∧
      (width + (widths.sum - R.sum) = totalWidth ∨
        (R = mins ∧ width + (widths.sum - R.sum) < totalWidth)) := by
  intro fuel
  induction fuel with
  | zero =>
    intro widths width s R _ _ hwt hf _
    exact absurd hf (by omega)
  | succ n ih =>
    intro widths width s R hlen hmw hwt hf hR
    rw [decLoop] at hR
    by_cases h1 : width = totalWidth
    · rw [if_pos h1] at hR
      subst hR
      exact ⟨rfl, fun i hi => ⟨hmw i hi, Nat.le_refl _⟩, Or.inl (by omega)⟩
    · rw [if_neg h1] at hR
      by_cases h2 : countEmpty mins widths = widths.length
      · rw [if_pos h2] at hR
        subst hR
        have hall := all_empty_of_countEmpty_eq mins widths h2
        have heqm : widths = mins := by
          apply list_eq_of_getD widths mins hlen
          intro i hi
          have h3 := hmw i hi
          rcases hall i hi with h | h <;> omega
        exact ⟨rfl, fun i hi => ⟨hmw i hi, Nat.le_refl _⟩,
          Or.inr ⟨heqm, by omega⟩⟩
      · rw [if_neg h2] at hR
        have hex := exists_above_of_countEmpty_ne mins widths h2
        rcases hP s widths hex with ⟨col, s1, hpeak, hcol, hgt⟩
        rw [hpeak] at hR
        dsimp only at hR
        have hguard : ¬(widths.getD col 0 = 0 ∨
            widths.getD col 0 ≤ mins.getD col 0) := by omega
        rw [if_neg hguard] at hR
        have hE : (if (widths.set col (widths.getD col 0 - 1)).getD col 0 = 0 ∨
              (widths.set col (widths.getD col 0 - 1)).getD col 0
                ≤ mins.getD col 0
            then countEmpty mins widths + 1 else countEmpty mins widths)
            = countEmpty mins (widths.set col (widths.getD col 0 - 1)) := by
          rw [countEmpty_set mins widths col hcol hguard]
          by_cases hq : (widths.set col (widths.getD col 0 - 1)).getD col 0 = 0
              ∨ (widths.set col (widths.getD col 0 - 1)).getD col 0
                ≤ mins.getD col 0
          · rw [if_pos hq, if_pos hq]
          · rw [if_neg hq, if_neg hq]
            rfl
        rw [hE] at hR
        have hlen1 : (widths.set col (widths.getD col 0 - 1)).length
            = mins.length := by
          rw [List.length_set]
          exact hlen
        have hmw1 : ∀ i, i < (widths.set col (widths.getD col 0 - 1)).length →
            mins.getD i 0
              ≤ (widths.set col (widths.getD col 0 - 1)).getD i 0 := by
          intro i hi
          rw [List.length_set] at hi
          by_cases hic : i = col
          · subst hic
            rw [getD_set_self widths 0 _ i hcol]
            omega
          · rw [getD_set_ne widths 0 _ col i (fun h => hic h.symm)]
            exact hmw i hi
        obtain ⟨ihlen, ihpt, ihd⟩ := ih (widths.set col (widths.getD col 0 - 1))
          (width + 1) s1 R hlen1 hmw1 (by omega) (by omega) hR
        have hsum : (widths.set col (widths.getD col 0 - 1)).sum + 1
            = widths.sum := sum_set_sub widths col hcol (by omega)
        have hRs : R.sum ≤ (widths.set col (widths.getD col 0 - 1)).sum := by
          apply sum_le_sum_of_getD R _ ihlen
          intro i hi
          rw [ihlen] at hi
          exact (ihpt i hi).2
        refine ⟨?_, ?_, ?_⟩
        · rw [ihlen, List.length_set]
        · intro i hi
          have hi1 : i < (widths.set col (widths.getD col 0 - 1)).length := by
            rw [List.length_set]
            exact hi
          obtain ⟨hl, hr⟩ := ihpt i hi1
          refine ⟨hl, ?_⟩
          by_cases hic : i = col
          · subst hic
            rw [getD_set_self widths 0 _ i hcol] at hr
            omega
          · rw [getD_set_ne widths 0 _ col i (fun h => hic h.symm)] at hr
            exact hr
        · rcases ihd with hcase | ⟨hcase, hlt2⟩
          · left
            omega
          · right
            exact ⟨hcase, by omega⟩

/-- Claim C1: `decrease_widths` run with the current total
`sum(widths) + B` and target `T ≤ total`, under a priority policy that only
selects columns strictly above their minimum: no column ever drops below its
minimum; if `T ≥ sum(minimum widths) + B` the final total is exactly `T`;
and if `T` is below that floor the final widths are exactly the minimums. -/
theorem claim_C1 {σ : Type} (P : Peaker σ) (s : σ) (widths mins : List Nat)
    (B T fuel : Nat) (R : List Nat) (hP : GoodPeaker P mins)
    (hlen : widths.length = mins.length)
    (hmw : ∀ i, i < widths.length → mins.getD i 0 ≤ widths.getD i 0)
    (hT : T ≤ widths.sum + B)
    (hfuel : widths.sum + B - T < fuel)
    (hR : decreaseWidths P s widths mins (widths.sum + B) T fuel = R) :
    (∀ i, i < widths.length → mins.getD i 0 ≤ R.getD i 0) ∧
    (mins.sum + B ≤ T → R.sum + B = T) ∧
    (T < mins.sum + B → R = mins) := by
  rw [decreaseWidths] at hR
  obtain ⟨hRlen, hpt, hd⟩ := decLoop_main P mins (widths.sum + B) hP fuel
    widths T s R hlen hmw hT (by omega) hR
  have hminsums : mins.sum ≤ widths.sum := by
    apply sum_le_sum_of_getD mins widths hlen.symm
    intro i hi
    exact hmw i (by omega)
  have hRsum_le : R.sum ≤ widths.sum := by
    apply sum_le_sum_of_getD R widths hRlen
    intro i hi
    rw [hRlen] at hi
    exact (hpt i hi).2
  have hRsum_ge : mins.sum ≤ R.sum := by
    apply sum_le_sum_of_getD mins R (by rw [hRlen, hlen])
    intro i hi
    have hi2 : i < widths.length := by omega
    exact (hpt i hi2).1
  refine ⟨fun i hi => (hpt i hi).1, ?_, ?_⟩
  · intro hfloor
    rcases hd with h | ⟨hmin, hlt⟩
    · omega
    · have hs : R.sum = mins.sum := by rw [hmin]
      omega
  · intro hbelow
    rcases hd with h | ⟨hmin, _⟩
    · exfalso
      omega
    · exact hmin

/-- Witness for C1: widths `[6, 9]` with minimums `[2, 2]`, 3 border
glyphs, target 10 ≥ floor 7: the loop lands on `[2, 5]`, total exactly 10,
and column 0 stays at its minimum 2. -/
theorem claim_C1_witness :
    ([2, 2] : List Nat).getD 0 0 ≤ ([2, 5] : List Nat).getD 0 0 ∧
    ([2, 5] : List Nat).sum + 3 = 10 :=
  ⟨(claim_C1 firstAbovePeaker () [6, 9] [2, 2] 3 10 12 [2, 5]
      (firstAbovePeaker_good [2, 2]) (by decide) (by decide) (by decide)
      (by decide) (by decide)).1 0 (by decide),
   (claim_C1 firstAbovePeaker () [6, 9] [2, 2] 3 10 12 [2, 5]
      (firstAbovePeaker_good [2, 2]) (by decide) (by decide) (by decide)
      (by decide) (by decide)).2.1 (by decide)⟩

/-- Stabilisation of the `decrease_widths` loop: with a well-behaved
priority policy and any fuel beyond `sum(widths)`, extra fuel never changes
the result — each iteration either exits or decrements the width sum, so
the loop performs at most `sum(widths) + 1` iterations. -/
theorem decLoop_stable {σ : Type} (P : Peaker σ) (mins : List Nat)
    (totalWidth : Nat) (hP : GoodPeaker P mins) :
    ∀ (fuel extra : Nat) (widths : List Nat) (width : Nat) (s : σ),
      widths.sum < fuel →
      decLoop P mins totalWidth (fuel + extra) widths
        (countEmpty mins widths) width s
      = decLoop P mins totalWidth fuel widths
          (countEmpty mins widths) width s := by
  intro fuel
  induction fuel with
  | zero =>
    intro extra widths width s hf
    exact absurd hf (by omega)
  | succ n ih =>
    intro extra widths width s hf
    have hsplit : n + 1 + extra = (n + extra) + 1 := by omega
    rw [hsplit, decLoop, decLoop]
    by_cases h1 : width = totalWidth
    · rw [if_pos h1, if_pos h1]
    · rw [if_neg h1, if_neg h1]
      by_cases h2 : countEmpty mins widths = widths.length
      · rw [if_pos h2, if_pos h2]
      · rw [if_neg h2, if_neg h2]
        have hex := exists_above_of_countEmpty_ne mins widths h2
        rcases hP s widths hex with ⟨col, s1, hpeak, hcol, hgt⟩
        rw [hpeak]
        dsimp only
        have hguard : ¬(widths.getD col 0 = 0 ∨
            widths.getD col 0 ≤ mins.getD col 0) := by omega
        rw [if_neg hguard, if_neg hguard]
        have hE : (if (widths.set col (widths.getD col 0 - 1)).getD col 0 = 0 ∨
              (widths.set col (widths.getD col 0 - 1)).getD col 0
                ≤ mins.getD col 0
            then countEmpty mins widths + 1 else countEmpty mins widths)
            = countEmpty mins (widths.set col (widths.getD col 0 - 1)) := by
          rw [countEmpty_set mins widths col hcol hguard]
          by_cases hq : (widths.set col (widths.getD col 0 - 1)).getD col 0 = 0
              ∨ (widths.set col (widths.getD col 0 - 1)).getD col 0
                ≤ mins.getD col 0
          · rw [if_pos hq, if_pos hq]
          · rw [if_neg hq, if_neg hq]
            rfl
        rw [hE]
        have hsum : (widths.set col (widths.getD col 0 - 1)).sum + 1
            = widths.sum := sum_set_sub widths col hcol (by omega)
        exact ih extra (widths.set col (widths.getD col 0 - 1)) (width + 1) s1
          (by omega)

/-- Claim C8: the width-adjustment decrement loop terminates for every
input under the precondition that the priority policy only selects columns
strictly above their minimum: any fuel beyond `sum(widths) + 1` yields the
very same result as fuel `sum(widths) + 1`, so total work is finite and
bounded by the sum of the widths. -/
theorem claim_C8 {σ : Type} (P : Peaker σ) (s : σ) (widths mins : List Nat)
    (totalWidth width fuel : Nat) (hP : GoodPeaker P mins)
    (hfuel : widths.sum < fuel) :
    decreaseWidths P s widths mins totalWidth width fuel
      = decreaseWidths P s widths mins totalWidth width (widths.sum + 1) := by
  have hsplit : fuel = (widths.sum + 1) + (fuel - (widths.sum + 1)) := by omega
  rw [decreaseWidths, decreaseWidths, hsplit]
  exact decLoop_stable P mins totalWidth hP (widths.sum + 1)
    (fuel - (widths.sum + 1)) widths width s (by omega)

/-- Witness for C8: on `[6, 9]` any fuel past 16 gives the fuel-16 result. -/
theorem claim_C8_witness :
    decreaseWidths firstAbovePeaker () [6, 9] [2, 2] 18 10 20
      = decreaseWidths firstAbovePeaker () [6, 9] [2, 2] 18 10 16 :=
  claim_C8 firstAbovePeaker () [6, 9] [2, 2] 18 10 20
    (firstAbovePeaker_good [2, 2]) (by decide)

end Tabled
